import Mathlib

/-!
Shallow embedding of the embedding + similarity-search + resilient storage engine
of the Mobile-Llm-app repository.

Sources modelled:
- `src/services/LightVectorDB.ts` (`LightVectorDB` and its fallback `SimpleVectorStore`);
- `src/services/EmbedderModelManager.ts` (`generateSimpleEmbedding`, `simpleHash`,
  `cosineSimilarity`, `embed`).

Modelling conventions:
- JavaScript `Map`s are association lists in insertion order.  `Map.get` is
  `mapGet` (first entry wins), `Map.set` replaces the first entry with the key
  in place or appends a fresh one (`mapSet`), `Map.delete` removes the entry
  with the key (`mapDelete`).
- `Date.now()` and the random id fragments are nondeterministic inputs, so the
  operations take the current time and the freshly generated id as parameters.
- Numbers that the code only adds, counts and compares as small exact integers
  (timestamps, lengths) are `Int`/`Nat`; the float vector arithmetic of the
  embedder (`Float32Array`, `Math.sqrt`) is idealised over `ℝ`, matching the
  spec's "within floating-point epsilon" reading.
- Persistence (`AsyncStorage.setItem` inside `saveToStorage`) is modelled by an
  explicit success flag; `saveToStorage` itself catches every error, which is
  why the in-memory operations are total functions.
- The embedding generator can fail (`embed` throws); `addMessage` catches that
  failure, so the generated embedding is passed to `addMessage` as an
  `Option` value.
- `this.config` fields (`similarityThreshold`, `cleanupPolicy`) are threaded as
  explicit parameters of the operations that read them.
-/

namespace MobileLlm

/-- Message role, the `'user' | 'assistant' | 'system'` union of
`src/types/chat.ts`. -/
inductive Role
  | user
  | assistant
  | system
deriving DecidableEq

/-- `ChatSession` record of `src/types/chat.ts`: id, title, preview, createdAt,
updatedAt (epoch milliseconds) and messageCount. -/
structure Session where
  id : String
  title : String
  preview : String
  createdAt : Int
  updatedAt : Int
  messageCount : Nat
deriving DecidableEq

/-- `ChatMessage` record of `src/types/chat.ts`.  The vector payload type `V`
is kept abstract (the store never inspects vector contents; the search layer
instantiates `V` with `List ℝ`). -/
structure ChatMessage (V : Type) where
  id : String
  sessionId : String
  role : Role
  content : String
  timestamp : Int
  embedding : Option V
deriving DecidableEq

/-- `Partial<ChatSession>` as passed to `updateSession`: every field optional. -/
structure SessionPatch where
  id : Option String
  title : Option String
  preview : Option String
  createdAt : Option Int
  updatedAt : Option Int
  messageCount : Option Nat
deriving DecidableEq

/-- The fallback `SimpleVectorStore` state: two in-memory maps, no
persistence and no embedding index. -/
structure FBStore (V : Type) where
  sessions : List (String × Session)
  messages : List (String × List (ChatMessage V))
deriving DecidableEq

/-- The `LightVectorDB` in-memory state: `sessions`, `messages` and
`messageEmbeddings` maps plus the wrapped fallback store. -/
structure Store (V : Type) where
  sessions : List (String × Session)
  messages : List (String × List (ChatMessage V))
  messageEmbeddings : List (String × V)
  fallback : FBStore V
deriving DecidableEq

/-- The snapshot produced by `exportData` / consumed by `importData`:
session values, message lists keyed by session id, embedding vectors keyed by
message id (already converted to plain arrays), and a timestamp.  The `config`
field of the real snapshot is omitted: `importData` ignores it. -/
structure Snapshot (V : Type) where
  sessions : List Session
  messages : List (String × List (ChatMessage V))
  embeddings : List (String × V)
  timestamp : Int
deriving DecidableEq

/-- The persisted blob written by `saveToStorage`: session **entries**
(key/value pairs, unlike the export snapshot which stores values only),
message entries, embedding entries and a timestamp. -/
structure Blob (V : Type) where
  sessions : List (String × Session)
  messages : List (String × List (ChatMessage V))
  embeddings : List (String × V)
  timestamp : Int
deriving DecidableEq

/-- JS `Map.get`: value of the first entry carrying the key. -/
def mapGet (m : List (String × α)) (k : String) : Option α :=
  (m.find? (fun p => p.1 == k)).map Prod.snd

/-- JS `Map.set`: replace the entry carrying the key in place, else append. -/
def mapSet : List (String × α) → String → α → List (String × α)
  | [], k, v => [(k, v)]
  | p :: t, k, v => if p.1 = k then (k, v) :: t else p :: mapSet t k v

/-- JS `Map.delete`: drop the entry carrying the key. -/
def mapDelete (m : List (String × α)) (k : String) : List (String × α) :=
  m.filter (fun p => !(p.1 == k))

/-- `new Map(entries)`: insert the entries left to right (a repeated key keeps
its first position but takes the last value, exactly as `Map.set` does). -/
def jsMapOfList (l : List (String × α)) : List (String × α) :=
  l.foldl (fun m p => mapSet m p.1 p.2) []

/-- `String.prototype.startsWith`, written out over character lists. -/
def listStarts : List Char → List Char → Bool
  | _, [] => true
  | [], _ :: _ => false
  | c :: cs, d :: ds => c == d && listStarts cs ds

/-- `str.startsWith(pre)`. -/
def strStarts (s pre : String) : Bool :=
  listStarts s.data pre.data

/-- `truncateContent` of `LightVectorDB`: cut to 100 characters and append an
ellipsis. -/
def truncateContent (content : String) : String :=
  if content.length > 100 then (content.take 100) ++ "..." else content

/-- `title || 'New Chat'` — note the JS falsiness of the empty string. -/
def titleOrDefault : Option String → String
  | none => "New Chat"
  | some t => if t = "" then "New Chat" else t

/-- `SimpleVectorStore.getSession`: plain map lookup (`|| null`). -/
def fbGetSession (fb : FBStore V) (id : String) : Option Session :=
  mapGet fb.sessions id

/-- `SimpleVectorStore.deleteSession`: drop the session and its messages. -/
def fbDeleteSession (fb : FBStore V) (id : String) : FBStore V :=
  { sessions := mapDelete fb.sessions id, messages := mapDelete fb.messages id }

/-- `{...session, ...updates, updatedAt: Date.now()}`: the patch overrides the
session fields it carries, and `updatedAt` is then overridden by the clock. -/
def applyPatch (s : Session) (p : SessionPatch) (now : Int) : Session :=
  { id := p.id.getD s.id
    title := p.title.getD s.title
    preview := p.preview.getD s.preview
    createdAt := p.createdAt.getD s.createdAt
    updatedAt := now
    messageCount := p.messageCount.getD s.messageCount }

/-- `SimpleVectorStore.updateSession`: patch the session if present, else a
logged no-op. -/
def fbUpdateSession (fb : FBStore V) (id : String) (p : SessionPatch) (now : Int) :
    FBStore V :=
  match mapGet fb.sessions id with
  | some s => { fb with sessions := mapSet fb.sessions id (applyPatch s p now) }
  | none => fb

/-- `SimpleVectorStore.deleteMessage`: splice the message out of the first
session list containing it and refresh that session's `messageCount`. -/
def fbDeleteMessage (fb : FBStore V) (id : String) : FBStore V :=
  match fb.messages.find? (fun p => p.2.any (fun m => m.id == id)) with
  | some p =>
    let msgs' := p.2.eraseP (fun m => m.id == id)
    let sessions' := match mapGet fb.sessions p.1 with
      | some s => mapSet fb.sessions p.1 { s with messageCount := msgs'.length }
      | none => fb.sessions
    { sessions := sessions', messages := mapSet fb.messages p.1 msgs' }
  | none => fb

/-- `LightVectorDB.createSession`: fresh session with zero messages; both maps
gain an entry, then the state is persisted (write-through). -/
def createSession (db : Store V) (title : Option String) (now : Int)
    (freshId : String) : Session × Store V :=
  let s : Session :=
    { id := freshId, title := titleOrDefault title, preview := ""
      createdAt := now, updatedAt := now, messageCount := 0 }
  (s, { db with sessions := mapSet db.sessions freshId s
                messages := mapSet db.messages freshId [] })

/-- `LightVectorDB.getSession`: primary map first; on a miss (not only on an
exception) the fallback store is consulted and its answer returned. -/
def getSession (db : Store V) (id : String) : Option Session :=
  match mapGet db.sessions id with
  | some s => some s
  | none => fbGetSession db.fallback id

/-- `LightVectorDB.updateSession`: patch the session if present, otherwise try
the fallback store. -/
def updateSession (db : Store V) (id : String) (p : SessionPatch) (now : Int) :
    Store V :=
  match mapGet db.sessions id with
  | some s => { db with sessions := mapSet db.sessions id (applyPatch s p now) }
  | none => { db with fallback := fbUpdateSession db.fallback id p now }

/-- `LightVectorDB.deleteSession`: drop the session and its message list, then
drop every embedding whose **message id starts with the session id** (the
code's literal filter, `msgId.startsWith(id)`), and cascade to the fallback. -/
def deleteSession (db : Store V) (id : String) : Store V :=
  { sessions := mapDelete db.sessions id
    messages := mapDelete db.messages id
    messageEmbeddings := db.messageEmbeddings.filter (fun p => !(strStarts p.1 id))
    fallback := fbDeleteSession db.fallback id }

/-- The duplicate scan of `addMessage`: some existing message of the session
has the same content and role and a timestamp within 1000 ms of `now`. -/
def dedupHit (msgs : List (ChatMessage V)) (role : Role) (content : String)
    (now : Int) : Bool :=
  msgs.any (fun ex =>
    decide (ex.content = content ∧ ex.role = role ∧ (ex.timestamp - now).natAbs < 1000))

/-- `LightVectorDB.addMessage` (in-memory part).  On a duplicate hit the call
returns `sessionMessages[sessionMessages.length - 1]` — the **last** message of
the session — and leaves the state untouched (the `getD` default is the
unreachable empty-list case).  Otherwise the message (with its best-effort
embedding `emb`) is appended, the embedding index updated when an embedding was
produced, and the owning session's `messageCount`/`updatedAt`/`preview`
refreshed. -/
def addMessage (db : Store V) (sid : String) (role : Role) (content : String)
    (now : Int) (freshId : String) (emb : Option V) : ChatMessage V × Store V :=
  let sessionMessages := (mapGet db.messages sid).getD []
  let message : ChatMessage V :=
    { id := freshId, sessionId := sid, role := role, content := content
      timestamp := now, embedding := emb }
  if dedupHit sessionMessages role content now then
    (sessionMessages.getLast?.getD message, db)
  else
    let msgs' := sessionMessages ++ [message]
    let embeddings' := match emb with
      | some e => mapSet db.messageEmbeddings freshId e
      | none => db.messageEmbeddings
    let sessions' := match mapGet db.sessions sid with
      | some s => mapSet db.sessions sid
          { s with messageCount := msgs'.length, updatedAt := now
                   preview := truncateContent content }
      | none => db.sessions
    (message,
     { db with sessions := sessions', messages := mapSet db.messages sid msgs'
               messageEmbeddings := embeddings' })

/-- `LightVectorDB.getMessages`: the session's list, or its last `limit`
elements when a (truthy, hence nonzero) limit is given. -/
def getMessages (db : Store V) (sid : String) (limit : Option Nat) :
    List (ChatMessage V) :=
  let msgs := (mapGet db.messages sid).getD []
  match limit with
  | none => msgs
  | some 0 => msgs
  | some (l + 1) => msgs.drop (msgs.length - (l + 1))

/-- `LightVectorDB.deleteMessage`: find the first session list containing the
id, splice the message out, drop its embedding, refresh the owning session's
count and `updatedAt`, and always forward the deletion to the fallback. -/
def deleteMessage (db : Store V) (id : String) (now : Int) : Store V :=
  let db1 : Store V := match db.messages.find? (fun p => p.2.any (fun m => m.id == id)) with
  | some p =>
    let msgs' := p.2.eraseP (fun m => m.id == id)
    let sessions' := match mapGet db.sessions p.1 with
      | some s => mapSet db.sessions p.1
          { s with messageCount := msgs'.length, updatedAt := now }
      | none => db.sessions
    { db with sessions := sessions', messages := mapSet db.messages p.1 msgs'
              messageEmbeddings := mapDelete db.messageEmbeddings id }
  | none => db
  { db1 with fallback := fbDeleteMessage db1.fallback id }

/-- Insertion step of a stable comparator sort (`le a b` = "a may come before
b"): insert before the first element that may come after. -/
def oInsert (le : α → α → Bool) (a : α) : List α → List α
  | [] => [a]
  | b :: l => if le a b then a :: b :: l else b :: oInsert le a l

/-- Stable insertion sort; models `Array.prototype.sort` with a consistent
comparator (stable per the ECMAScript spec). -/
def iSort (le : α → α → Bool) : List α → List α
  | [] => []
  | a :: l => oInsert le a (iSort le l)

/-- The age cutoff of `cleanup`:
`Date.now() - maxAge * 24 * 60 * 60 * 1000`. -/
def cleanupCutoff (now : Int) (maxAgeDays : Nat) : Int :=
  now - (maxAgeDays : Int) * (24 * 60 * 60 * 1000)

/-- A sequence of `deleteSession` calls. -/
def deleteAll (db : Store V) (ids : List String) : Store V :=
  ids.foldl (fun d i => deleteSession d i) db

/-- The ids collected by `cleanup`'s first loop: sessions whose `createdAt`
lies strictly before the cutoff. -/
def cleanupOldIds (db : Store V) (now : Int) (maxAgeDays : Nat) : List String :=
  (db.sessions.filter (fun p => decide (p.2.createdAt < cleanupCutoff now maxAgeDays))).map
    Prod.fst

/-- `cleanup` after its first loop (all too-old sessions deleted). -/
def cleanupPhase1 (db : Store V) (now : Int) (maxAgeDays : Nat) : Store V :=
  deleteAll db (cleanupOldIds db now maxAgeDays)

/-- The ids deleted by `cleanup`'s second pass: sort the surviving session
values by `updatedAt` descending (stable) and take everything past the
`maxSessions` cap. -/
def cleanupExcessIds (db : Store V) (maxSessions : Nat) : List String :=
  ((iSort (fun a b => decide (b.updatedAt ≤ a.updatedAt)) (db.sessions.map Prod.snd)).drop
    maxSessions).map Session.id

/-- `LightVectorDB.cleanup`: delete every session older than the cutoff, then
sort the survivors by `updatedAt` descending and delete everything past the
`maxSessions` cap. -/
def cleanup (db : Store V) (now : Int) (maxAgeDays maxSessions : Nat) : Store V :=
  deleteAll (cleanupPhase1 db now maxAgeDays)
    (cleanupExcessIds (cleanupPhase1 db now maxAgeDays) maxSessions)

/-- `LightVectorDB.exportData`: session values, the message map, the embedding
map (vectors already plain arrays — `Float32Array`→`number[]` is value
preserving) and a timestamp. -/
def exportData (db : Store V) (now : Int) : Snapshot V :=
  { sessions := db.sessions.map Prod.snd
    messages := db.messages
    embeddings := db.messageEmbeddings
    timestamp := now }

/-- `LightVectorDB.importData`: rebuild the three maps from the snapshot —
sessions re-keyed by their own `id` field. -/
def importData (db : Store V) (d : Snapshot V) : Store V :=
  { db with
    sessions := jsMapOfList (d.sessions.map (fun s => (s.id, s)))
    messages := jsMapOfList d.messages
    messageEmbeddings := jsMapOfList d.embeddings }

/-- `LightVectorDB.saveToStorage`: on a successful write the whole state is
serialised under the single storage key; a failing `AsyncStorage.setItem` is
caught inside `saveToStorage` (logged warning), leaving the previous blob —
the caller never sees the failure. -/
def saveToStorage (db : Store V) (now : Int) (ok : Bool) (prev : Option (Blob V)) :
    Option (Blob V) :=
  if ok then some ⟨db.sessions, db.messages, db.messageEmbeddings, now⟩ else prev

/-- `addMessage` together with its trailing write-through `saveToStorage` call:
the in-memory mutation happens first, then the persistence attempt whose
failure is swallowed. -/
def addMessagePersist (db : Store V) (sid : String) (role : Role) (content : String)
    (now : Int) (freshId : String) (emb : Option V) (ok : Bool)
    (prev : Option (Blob V)) : ChatMessage V × Store V × Option (Blob V) :=
  let r := addMessage db sid role content now freshId emb
  (r.1, r.2, saveToStorage r.2 now ok prev)

/-- The `messageCount` invariant of the spec's data model: every session held
by the store counts exactly the messages stored under its key. -/
def countInvariant (db : Store V) : Prop :=
  ∀ k s, mapGet db.sessions k = some s →
    s.messageCount = ((mapGet db.messages k).getD []).length

/-! ### Embedding generator (`EmbedderModelManager.generateSimpleEmbedding`) -/

/-- 32-bit signed wrap-around, the effect of JS `| 0` / `& hash` / `<< 5` on a
number. -/
def toInt32 (n : Int) : Int :=
  (n + 2 ^ 31) % 2 ^ 32 - 2 ^ 31

/-- One step of `simpleHash`: `hash = ((hash << 5) - hash) + charCode` followed
by the 32-bit wrap `hash = hash & hash`. -/
def hashStep (h : Int) (c : Char) : Int :=
  toInt32 (toInt32 (h * 32) - h + (c.toNat : Int))

/-- `simpleHash`: fold the steps over the characters, then `Math.abs`. -/
def simpleHash (s : List Char) : Nat :=
  (s.foldl hashStep 0).natAbs

/-- The whitespace class of the JS regex `\s` (ASCII part). -/
def isWS (c : Char) : Bool :=
  c == ' ' || c == '\t' || c == '\n' || c == '\r' || c == Char.ofNat 11 || c == Char.ofNat 12

/-- `text.split(/\s+/)` on character lists: tokens between maximal whitespace
runs, with an empty token for leading/trailing whitespace, and `[""]` for the
empty string (the JS behaviour that makes the all-zero branch unreachable). -/
def splitWS : List Char → List (List Char)
  | [] => [[]]
  | c :: cs =>
    if isWS c then
      match cs with
      | [] => [[], []]
      | c2 :: _ => if isWS c2 then splitWS cs else [] :: splitWS cs
    else
      match splitWS cs with
      | [] => [[c]]
      | w :: ws => (c :: w) :: ws

/-- Target slots of the bigram pass: for each of the first
`min(chars.length - 1, halfDim)` positions, hash the two-character substring
into the first half of the vector. -/
def bigramIdxs (cl : List Char) (half : Nat) : List Nat :=
  (List.range (min (cl.length - 1) half)).map
    (fun i => simpleHash ((cl.drop i).take 2) % half)

/-- Target slots of the word pass: for each of the first
`min(words.length, halfDim)` words, hash into the second half of the vector. -/
def wordIdxs (ws : List (List Char)) (half : Nat) : List Nat :=
  (List.range (min ws.length half)).map
    (fun i => half + simpleHash (ws.getD i []) % half)

/-- All increment targets of `generateSimpleEmbedding` on input `t` with
`dimensions = d`: lowercase, bigrams over the whitespace-stripped text, then
words of the whitespace split. -/
def embedIdxs (t : String) (d : Nat) : List Nat :=
  bigramIdxs ((t.data.map Char.toLower).filter (fun c => !isWS c)) (d / 2) ++
    wordIdxs (splitWS (t.data.map Char.toLower)) (d / 2)

/-- `embedding[hash] += 1`. -/
def bump (v : Nat → Nat) (j : Nat) : Nat → Nat :=
  fun i => if i = j then v i + 1 else v i

/-- The raw (pre-normalisation) vector of `generateSimpleEmbedding`: all the
`+= 1` increments folded over the zero vector.  The counts are small integers,
hence exact in `Float32`. -/
def embedCounts (t : String) (d : Nat) : Nat → Nat :=
  (embedIdxs t d).foldl bump (fun _ => 0)

/-- Squared magnitude of the raw vector (the `reduce` under the `Math.sqrt`). -/
noncomputable def embedNormSq (t : String) (d : Nat) : ℝ :=
  ∑ i ∈ Finset.range d, ((embedCounts t d i : ℝ)) ^ 2

/-- The returned embedding: each slot divided by the magnitude when the
magnitude is positive, otherwise the raw (all-zero) vector unnormalised. -/
noncomputable def embedR (t : String) (d : Nat) : Nat → ℝ :=
  fun i =>
    if 0 < Real.sqrt (embedNormSq t d) then
      (embedCounts t d i : ℝ) / Real.sqrt (embedNormSq t d)
    else (embedCounts t d i : ℝ)

/-- L2 norm of the returned embedding. -/
noncomputable def embedNormOut (t : String) (d : Nat) : ℝ :=
  Real.sqrt (∑ i ∈ Finset.range d, (embedR t d i) ^ 2)

/-! ### Cosine similarity and vector search -/

/-- Embedding vectors handed to the similarity layer. -/
abbrev Vec : Type := List ℝ

/-- The dot-product accumulator of `cosineSimilarity`. -/
noncomputable def dotp (a b : Vec) : ℝ :=
  (List.zipWith (fun x y => x * y) a b).sum

/-- The `normA`/`normB` accumulator before the square root. -/
noncomputable def sumSq (a : Vec) : ℝ :=
  (a.map (fun x => x * x)).sum

/-- `Math.sqrt` of the accumulated squares. -/
noncomputable def l2 (a : Vec) : ℝ :=
  Real.sqrt (sumSq a)

/-- `EmbedderModelManagerService.cosineSimilarity`: 0 on a length mismatch,
0 when either magnitude is zero, otherwise the normalised dot product.  A
total function — the code never throws here. -/
noncomputable def cosineSimilarity (a b : Vec) : ℝ :=
  if a.length = b.length then
    if l2 a = 0 ∨ l2 b = 0 then 0 else dotp a b / (l2 a * l2 b)
  else 0

/-- Classical truth value of a real-number comparison (the code compares
floats; the idealisation over `ℝ` is not effectively decidable). -/
noncomputable def rdecide (p : Prop) : Bool :=
  @decide p (Classical.propDecidable p)

/-- The per-message body of the search scan: messages without an indexed
embedding are skipped, similarities below the threshold are dropped,
everything else yields a `(message, similarity)` result. -/
noncomputable def candOf (threshold : ℝ) (db : Store Vec) (q : Vec)
    (m : ChatMessage Vec) : Option (ChatMessage Vec × ℝ) :=
  match mapGet db.messageEmbeddings m.id with
  | some e =>
    if rdecide (threshold ≤ cosineSimilarity q e) then
      some (m, cosineSimilarity q e)
    else none
  | none => none

/-- The candidate pass of `searchSimilarMessages`: walk the message map in
insertion order, look each message's embedding up by id, and keep
`(message, similarity)` for every similarity at or above the threshold.  The
scan skips an entry exactly when `sessionId && sid !== sessionId` — so a
**falsy** session id (the empty string) disables scoping and the scan covers
all sessions.  A string query is embedded first; `q` is the resulting query
vector. -/
noncomputable def searchCandidates (threshold : ℝ) (db : Store Vec) (q : Vec)
    (scope : Option String) : List (ChatMessage Vec × ℝ) :=
  ((db.messages.filter (fun p =>
      match scope with
      | some s => if s = "" then true else p.1 == s
      | none => true)).map
    (fun p => p.2.filterMap (candOf threshold db q))).flatten

/-- Comparator of `results.sort((a, b) => b.similarity - a.similarity)`. -/
noncomputable def simLe (a b : ChatMessage Vec × ℝ) : Bool :=
  rdecide (b.2 ≤ a.2)

/-- The candidates after the stable descending sort. -/
noncomputable def searchSorted (threshold : ℝ) (db : Store Vec) (q : Vec)
    (scope : Option String) : List (ChatMessage Vec × ℝ) :=
  iSort simLe (searchCandidates threshold db q scope)

/-- `LightVectorDB.searchSimilarMessages`: sort the candidates by similarity
descending (stable) and truncate to `limit`. -/
noncomputable def searchSimilarMessages (threshold : ℝ) (db : Store Vec) (q : Vec)
    (scope : Option String) (limit : Nat) : List (ChatMessage Vec × ℝ) :=
  (searchSorted threshold db q scope).take limit

/-! ### Concrete states used by witnesses and counterexamples -/

/-- A fresh session as `createSession` builds it at time 0 with id `"s"`. -/
def baseSession : Session :=
  { id := "s", title := "New Chat", preview := "", createdAt := 0, updatedAt := 0
    messageCount := 0 }

/-- A store holding exactly the empty session `"s"`. -/
def baseStore : Store Vec :=
  { sessions := [("s", baseSession)], messages := [("s", [])]
    messageEmbeddings := [], fallback := ⟨[], []⟩ }

/-- A session that lives only in the fallback store. -/
def fbOnlySession : Session :=
  { id := "f", title := "New Chat", preview := "", createdAt := 0, updatedAt := 0
    messageCount := 0 }

/-- A store whose primary maps are empty while the fallback holds `"f"`. -/
def fbOnlyStore : Store Vec :=
  { sessions := [], messages := [], messageEmbeddings := []
    fallback := ⟨[("f", fbOnlySession)], []⟩ }

/-- A session named `"x"` holding one message, used to exercise the search
scan. -/
def c4Session : Session :=
  { id := "x", title := "New Chat", preview := "hello", createdAt := 0, updatedAt := 0
    messageCount := 1 }

/-- The message of session `"x"`, with an indexed embedding. -/
def c4Message : ChatMessage Vec :=
  { id := "m1", sessionId := "x", role := Role.user, content := "hello"
    timestamp := 0, embedding := some [1] }

/-- A store holding session `"x"`, its message and the message's embedding. -/
def c4Store : Store Vec :=
  { sessions := [("x", c4Session)], messages := [("x", [c4Message])]
    messageEmbeddings := [("m1", [1])], fallback := ⟨[], []⟩ }

/-- A session with the id shape `session_${Date.now()}_${random}` that
`createSession` generates. -/
def c1Session : Session :=
  { id := "session_1_abcdefghi", title := "New Chat", preview := "Hello there"
    createdAt := 1, updatedAt := 2, messageCount := 1 }

/-- A message of that session with the id shape
`msg_${sessionId.substr(-6)}_${Date.now()}_${random}` that `addMessage`
generates (the session-id fragment is its **last six** characters). -/
def c1Message : ChatMessage Vec :=
  { id := "msg_defghi_2_kkkkkkkkkkkk", sessionId := "session_1_abcdefghi"
    role := Role.user, content := "Hello there", timestamp := 2
    embedding := some [1] }

/-- The store holding that session, its message, and the message's embedding
in the index. -/
def c1Store : Store Vec :=
  { sessions := [("session_1_abcdefghi", c1Session)]
    messages := [("session_1_abcdefghi", [c1Message])]
    messageEmbeddings := [("msg_defghi_2_kkkkkkkkkkkk", [1])]
    fallback := ⟨[], []⟩ }

/-! ## Basic map lemmas -/

theorem mapGet_nil (k : String) : mapGet ([] : List (String × α)) k = none := rfl

theorem mapGet_cons (p : String × α) (t : List (String × α)) (k : String) :
    mapGet (p :: t) k = if p.1 = k then some p.2 else mapGet t k := by
  by_cases h : p.1 = k
  · rw [mapGet, List.find?_cons_of_pos _ (by simp [h]), if_pos h]
    rfl
  · rw [mapGet, List.find?_cons_of_neg _ (by simp [h]), if_neg h]
    rfl

theorem mapGet_mapSet (m : List (String × α)) (k k' : String) (v : α) :
    mapGet (mapSet m k v) k' = if k' = k then some v else mapGet m k' := by
  induction m with
  | nil =>
    rw [show mapSet ([] : List (String × α)) k v = [(k, v)] from rfl, mapGet_cons]
    by_cases h : k' = k
    · simp [h]
    · rw [if_neg h, if_neg (fun hh => h hh.symm)]
  | cons p t ih =>
    by_cases hp : p.1 = k
    · rw [show mapSet (p :: t) k v = (k, v) :: t from by rw [mapSet, if_pos hp],
        mapGet_cons]
      by_cases h : k' = k
      · simp [h]
      · rw [if_neg (fun hh : k = k' => h hh.symm), if_neg h, mapGet_cons,
          if_neg (by rw [hp]; exact fun hh : k = k' => h hh.symm)]
    · rw [show mapSet (p :: t) k v = p :: mapSet t k v from by rw [mapSet, if_neg hp],
        mapGet_cons, ih, mapGet_cons]
      by_cases h : k' = k
      · rw [if_pos h, if_pos h, if_neg (by rw [h]; exact hp)]
      · rw [if_neg h, if_neg h]

theorem mapDelete_nil (k : String) : mapDelete ([] : List (String × α)) k = [] := rfl

theorem mapDelete_cons (p : String × α) (t : List (String × α)) (k : String) :
    mapDelete (p :: t) k = if p.1 = k then mapDelete t k else p :: mapDelete t k := by
  by_cases h : p.1 = k
  · simp [mapDelete, List.filter_cons, h]
  · simp [mapDelete, List.filter_cons, h]

theorem mapGet_mapDelete (m : List (String × α)) (k k' : String) :
    mapGet (mapDelete m k) k' = if k' = k then none else mapGet m k' := by
  induction m with
  | nil =>
    rw [mapDelete_nil, mapGet_nil]
    by_cases h : k' = k <;> simp [h, mapGet_nil]
  | cons p t ih =>
    rw [mapDelete_cons]
    by_cases hp : p.1 = k
    · rw [if_pos hp, ih, mapGet_cons]
      by_cases h : k' = k
      · rw [if_pos h, if_pos h]
      · rw [if_neg h, if_neg h, if_neg (by rw [hp]; exact fun hh : k = k' => h hh.symm)]
    · rw [if_neg hp, mapGet_cons, ih, mapGet_cons]
      by_cases h : k' = k
      · rw [if_pos h, if_pos h, if_neg (by rw [h]; exact hp)]
      · rw [if_neg h, if_neg h]

theorem mapGet_mem {m : List (String × α)} {k : String} {v : α}
    (h : mapGet m k = some v) : (k, v) ∈ m := by
  unfold mapGet at h
  cases hf : m.find? (fun p => p.1 == k) with
  | none => rw [hf] at h; simp at h
  | some p =>
    rw [hf] at h
    simp only [Option.map_some'] at h
    have hm := List.mem_of_find?_eq_some hf
    have hk := List.find?_some hf
    simp only [beq_iff_eq] at hk
    cases p with
    | mk a b =>
      simp only at hk h
      subst hk
      obtain rfl : b = v := Option.some.inj h
      exact hm

/-! ## C1: deleteSession cascade -/

/-- C1: code bug witness.  `deleteSession` removes the session and its
messages (so `getSession` answers `none` and `getMessages` answers `[]`),
but the embedding of the session's message **remains in the index**: the
cleanup filter matches embedding keys that start with the session id, while
`addMessage` builds message ids as `msg_` + the last six characters of the
session id, so the filter never matches anything.  This contradicts the
spec's cascade clause and the code's own "Clean up embeddings for this
session" comment. -/
theorem c1_deleteSession_keeps_embedding :
    getSession (deleteSession c1Store "session_1_abcdefghi") "session_1_abcdefghi" = none ∧
    getMessages (deleteSession c1Store "session_1_abcdefghi") "session_1_abcdefghi" none = [] ∧
    mapGet (deleteSession c1Store "session_1_abcdefghi").messageEmbeddings
      "msg_defghi_2_kkkkkkkkkkkk" = some [1] :=
  ⟨rfl, rfl, rfl⟩

/-! ## C10: getSession falls through to the fallback store -/

/-- C10: on any id missing from the primary in-memory session map,
`getSession` does not answer `null` directly: it returns exactly the fallback
store's answer for that id, so a session living only in the fallback store is
still returned. -/
theorem c10_getSession_fallback (V : Type) (db : Store V) (id : String)
    (h : mapGet db.sessions id = none) :
    getSession db id = fbGetSession db.fallback id ∧
    (∀ s, fbGetSession db.fallback id = some s → getSession db id = some s) := by
  constructor
  · simp [getSession, h]
  · intro s hs
    simp [getSession, h, hs]

/-- C10 witness: the store whose primary maps are empty still returns the
fallback-only session `"f"`. -/
theorem c10_getSession_fallback_witness :
    getSession fbOnlyStore "f" = some fbOnlySession :=
  (c10_getSession_fallback Vec fbOnlyStore "f" rfl).2 fbOnlySession rfl

/-! ## addMessage lemmas, C2 and C8 -/

theorem addMessage_insert {V : Type} (db : Store V) (sid : String) (role : Role)
    (content : String) (now : Int) (freshId : String) (emb : Option V)
    (h : dedupHit ((mapGet db.messages sid).getD []) role content now = false) :
    addMessage db sid role content now freshId emb =
      (ChatMessage.mk freshId sid role content now emb,
       { db with
         sessions := match mapGet db.sessions sid with
           | some s => mapSet db.sessions sid
               { s with
                 messageCount := ((mapGet db.messages sid).getD []
                   ++ [ChatMessage.mk freshId sid role content now emb]).length
                 updatedAt := now, preview := truncateContent content }
           | none => db.sessions
         messages := mapSet db.messages sid
           ((mapGet db.messages sid).getD []
             ++ [ChatMessage.mk freshId sid role content now emb])
         messageEmbeddings := match emb with
           | some e => mapSet db.messageEmbeddings freshId e
           | none => db.messageEmbeddings }) := by
  simp only [addMessage, h, Bool.false_eq_true, if_false]

theorem addMessage_dup {V : Type} (db : Store V) (sid : String) (role : Role)
    (content : String) (now : Int) (freshId : String) (emb : Option V)
    (h : dedupHit ((mapGet db.messages sid).getD []) role content now = true) :
    addMessage db sid role content now freshId emb =
      (((mapGet db.messages sid).getD []).getLast?.getD
        ⟨freshId, sid, role, content, now, emb⟩, db) := by
  simp only [addMessage, h, if_true]

/-- C2: two consecutive `addMessage` calls with identical
`{sessionId, role, content}`, the first one actually inserting and the second
arriving within 1000 ms, return the same message (the one stored by the first
call), the second call inserts nothing (the whole store is unchanged), and in
particular the session's `messageCount` is untouched by the second call. -/
theorem c2_addMessage_dedup (V : Type) (db : Store V) (sid : String) (role : Role)
    (content : String) (t0 t1 : Int) (fid1 fid2 : String) (e1 e2 : Option V)
    (_hses : (mapGet db.sessions sid).isSome = true)
    (hfresh : dedupHit ((mapGet db.messages sid).getD []) role content t0 = false)
    (ht : (t1 - t0).natAbs < 1000) :
    (addMessage (addMessage db sid role content t0 fid1 e1).2 sid role content t1 fid2 e2).1
      = (addMessage db sid role content t0 fid1 e1).1 ∧
    (addMessage (addMessage db sid role content t0 fid1 e1).2 sid role content t1 fid2 e2).2
      = (addMessage db sid role content t0 fid1 e1).2 ∧
    (mapGet (addMessage (addMessage db sid role content t0 fid1 e1).2
          sid role content t1 fid2 e2).2.sessions sid).map Session.messageCount
      = (mapGet (addMessage db sid role content t0 fid1 e1).2.sessions sid).map
          Session.messageCount := by
  have h1 := addMessage_insert db sid role content t0 fid1 e1 hfresh
  set m1 : ChatMessage V := ⟨fid1, sid, role, content, t0, e1⟩ with hm1
  set old := (mapGet db.messages sid).getD [] with hold
  have hmsgs : mapGet (addMessage db sid role content t0 fid1 e1).2.messages sid
      = some (old ++ [m1]) := by
    rw [h1]
    simp [mapGet_mapSet]
  have hdup : dedupHit ((mapGet (addMessage db sid role content t0 fid1 e1).2.messages
      sid).getD []) role content t1 = true := by
    rw [hmsgs]
    simp only [Option.getD_some, dedupHit, List.any_append, List.any_cons, List.any_nil,
      Bool.or_eq_true]
    right
    left
    have habs : (t0 - t1).natAbs < 1000 := by
      rw [show t0 - t1 = -(t1 - t0) from by ring, Int.natAbs_neg]
      exact ht
    simp only [hm1, decide_eq_true_eq]
    exact ⟨trivial, trivial, habs⟩
  have h2 := addMessage_dup (addMessage db sid role content t0 fid1 e1).2 sid role
    content t1 fid2 e2 hdup
  rw [hmsgs] at h2
  simp only [Option.getD_some, List.getLast?_concat, Option.getD_some] at h2
  refine ⟨?_, ?_, ?_⟩
  · rw [h2, h1]
  · rw [h2]
  · rw [h2]

/-- C2 witness: on the store holding the empty session `"s"`, two identical
calls 500 ms apart return the same message. -/
theorem c2_addMessage_dedup_witness :
    (addMessage (addMessage baseStore "s" Role.user "Hi" 0 "m1" none).2
        "s" Role.user "Hi" 500 "m2" none).1
      = (addMessage baseStore "s" Role.user "Hi" 0 "m1" none).1 :=
  (c2_addMessage_dedup Vec baseStore "s" Role.user "Hi" 0 500 "m1" "m2" none none
    rfl rfl (by decide)).1

/-- C8: when the persistence write of an `addMessage` call fails, the call
still returns the freshly inserted message, a subsequent `getMessages` on the
same session still contains it, the in-memory state is the same as on a
successful write (the mutation precedes the I/O), and only the persisted blob
is left stale.  `saveToStorage` swallows the failure, so the caller never
sees it. -/
theorem c8_persist_failure_no_loss (V : Type) (db : Store V) (sid : String)
    (role : Role) (content : String) (now : Int) (fid : String) (emb : Option V)
    (prev : Option (Blob V))
    (hfresh : dedupHit ((mapGet db.messages sid).getD []) role content now = false) :
    (addMessagePersist db sid role content now fid emb false prev).1
      = ⟨fid, sid, role, content, now, emb⟩ ∧
    (addMessagePersist db sid role content now fid emb false prev).1
      ∈ getMessages (addMessagePersist db sid role content now fid emb false prev).2.1
          sid none ∧
    (addMessagePersist db sid role content now fid emb false prev).2.1
      = (addMessagePersist db sid role content now fid emb true prev).2.1 ∧
    (addMessagePersist db sid role content now fid emb false prev).2.2 = prev := by
  have h1 := addMessage_insert db sid role content now fid emb hfresh
  refine ⟨?_, ?_, ?_, ?_⟩
  · simp only [addMessagePersist, h1]
  · simp only [addMessagePersist, h1, getMessages, mapGet_mapSet, if_pos rfl,
      Option.getD_some]
    exact List.mem_append_right _ (List.mem_singleton.mpr rfl)
  · simp only [addMessagePersist]
  · simp only [addMessagePersist, saveToStorage, Bool.false_eq_true, if_false]

/-- C8 witness: a failing write on the base store still yields the message in
the in-memory list. -/
theorem c8_persist_failure_no_loss_witness :
    (addMessagePersist baseStore "s" Role.user "Hi" 7 "m1" none false none).1
      ∈ getMessages
          (addMessagePersist baseStore "s" Role.user "Hi" 7 "m1" none false none).2.1
          "s" none :=
  (c8_persist_failure_no_loss Vec baseStore "s" Role.user "Hi" 7 "m1" none none
    rfl).2.1

/-! ## Stable insertion sort lemmas -/

theorem oInsert_perm (le : α → α → Bool) (a : α) (l : List α) :
    (oInsert le a l).Perm (a :: l) := by
  induction l with
  | nil => simp [oInsert]
  | cons b t ih =>
    simp only [oInsert]
    by_cases h : le a b
    · rw [if_pos h]
    · rw [if_neg h]
      exact (ih.cons b).trans (List.Perm.swap a b t)

theorem iSort_perm (le : α → α → Bool) (l : List α) : (iSort le l).Perm l := by
  induction l with
  | nil => simp [iSort]
  | cons a t ih =>
    simp only [iSort]
    exact (oInsert_perm le a (iSort le t)).trans (ih.cons a)

theorem mem_iSort {le : α → α → Bool} {l : List α} {x : α} :
    x ∈ iSort le l ↔ x ∈ l :=
  (iSort_perm le l).mem_iff

theorem length_iSort (le : α → α → Bool) (l : List α) :
    (iSort le l).length = l.length :=
  (iSort_perm le l).length_eq

theorem mem_oInsert {le : α → α → Bool} {a x : α} {l : List α} :
    x ∈ oInsert le a l ↔ x = a ∨ x ∈ l := by
  rw [(oInsert_perm le a l).mem_iff, List.mem_cons]

theorem oInsert_pairwise {le : α → α → Bool}
    (htot : ∀ a b, le a b = true ∨ le b a = true)
    (htrans : ∀ a b c, le a b = true → le b c = true → le a c = true)
    (a : α) {l : List α} (h : l.Pairwise (fun x y => le x y = true)) :
    (oInsert le a l).Pairwise (fun x y => le x y = true) := by
  induction l with
  | nil => simp [oInsert]
  | cons b t ih =>
    rcases List.pairwise_cons.mp h with ⟨hb, ht⟩
    simp only [oInsert]
    by_cases hab : le a b
    · rw [if_pos hab]
      refine List.pairwise_cons.mpr ⟨?_, h⟩
      intro x hx
      rcases List.mem_cons.mp hx with hx | hx
      · rw [hx]
        exact hab
      · exact htrans a b x hab (hb x hx)
    · rw [if_neg hab]
      refine List.pairwise_cons.mpr ⟨?_, ih ht⟩
      intro x hx
      rcases mem_oInsert.mp hx with hx | hx
      · rw [hx]
        rcases htot a b with hh | hh
        · exact absurd hh hab
        · exact hh
      · exact hb x hx

theorem iSort_pairwise {le : α → α → Bool}
    (htot : ∀ a b, le a b = true ∨ le b a = true)
    (htrans : ∀ a b c, le a b = true → le b c = true → le a c = true)
    (l : List α) : (iSort le l).Pairwise (fun x y => le x y = true) := by
  induction l with
  | nil => simp [iSort]
  | cons a t ih =>
    simp only [iSort]
    exact oInsert_pairwise htot htrans a ih

theorem oInsert_filter {le : α → α → Bool} {q : α → Bool} {a : α}
    (h : q a = true → ∀ b, q b = true → le a b = true) (l : List α) :
    (oInsert le a l).filter q = if q a then a :: l.filter q else l.filter q := by
  induction l with
  | nil =>
    by_cases hqa : q a <;> simp [oInsert, List.filter_cons, hqa]
  | cons b t ih =>
    simp only [oInsert]
    by_cases hab : le a b
    · rw [if_pos hab]
      by_cases hqa : q a <;> simp [List.filter_cons, hqa]
    · rw [if_neg hab]
      by_cases hqa : q a
      · have hqb : q b = false := by
          cases hqb : q b
          · rfl
          · exact absurd (h hqa b hqb) hab
        simp [List.filter_cons, hqb, ih, hqa]
      · simp [List.filter_cons, ih, hqa]

theorem iSort_filter {le : α → α → Bool} {q : α → Bool}
    (h : ∀ a, q a = true → ∀ b, q b = true → le a b = true) (l : List α) :
    (iSort le l).filter q = l.filter q := by
  induction l with
  | nil => simp [iSort]
  | cons a t ih =>
    simp only [iSort, List.filter_cons]
    rw [oInsert_filter (h a) (iSort le t), ih]

/-! ## Cleanup lemmas and C6 -/

theorem deleteAll_sessions (V : Type) (ids : List String) (db : Store V) :
    (deleteAll db ids).sessions = db.sessions.filter (fun p => decide (p.1 ∉ ids)) := by
  induction ids generalizing db with
  | nil =>
    simp only [deleteAll, List.foldl_nil]
    rw [List.filter_congr (fun p _ => by simp : ∀ p ∈ db.sessions,
      (decide (p.1 ∉ ([] : List String))) = true)]
    simp
  | cons i is ih =>
    show (deleteAll (deleteSession db i) is).sessions = _
    rw [ih]
    show (db.sessions.filter (fun p => !(p.1 == i))).filter (fun p => decide (p.1 ∉ is)) = _
    rw [List.filter_filter]
    apply List.filter_congr
    intro p _
    by_cases h1 : p.1 = i <;> by_cases h2 : p.1 ∈ is <;>
      simp [h1, h2, List.mem_cons]

theorem length_filter_notP (l : List β) (q : β → Bool) :
    (l.filter (fun b => !(q b))).length = l.length - (l.filter q).length := by
  induction l with
  | nil => rfl
  | cons b t ih =>
    have hle : (t.filter q).length ≤ t.length := List.length_filter_le q t
    cases h : q b
    · simp only [List.filter_cons, h, Bool.not_false, if_true, List.length_cons]
      simp only [Bool.false_eq_true, if_false]
      omega
    · simp only [List.filter_cons, h, Bool.not_true, if_true, List.length_cons]
      simp only [Bool.false_eq_true, if_false]
      omega

theorem length_filter_mem {K ids : List String} (hK : K.Nodup) (hids : ids.Nodup)
    (hsub : ∀ x ∈ ids, x ∈ K) :
    (K.filter (fun k => decide (k ∈ ids))).length = ids.length := by
  have h1 : (K.filter (fun k => decide (k ∈ ids))).Nodup := hK.filter _
  rw [← List.toFinset_card_of_nodup h1, List.toFinset_filter]
  have h3 : Finset.filter (fun x => decide (x ∈ ids) = true) K.toFinset
      = Finset.filter (fun x => x ∈ ids.toFinset) K.toFinset := by
    apply Finset.filter_congr
    intro x _
    simp
  have hsubF : ids.toFinset ⊆ K.toFinset := by
    intro x hx
    simp only [List.mem_toFinset] at hx ⊢
    exact hsub x hx
  rw [h3, Finset.filter_mem_eq_inter, Finset.inter_eq_right.mpr hsubF,
    List.toFinset_card_of_nodup hids]

theorem cleanupPhase1_sessions (V : Type) (db : Store V) (now : Int) (maxAgeDays : Nat) :
    (cleanupPhase1 db now maxAgeDays).sessions
      = db.sessions.filter (fun p => decide (p.1 ∉ cleanupOldIds db now maxAgeDays)) :=
  deleteAll_sessions V _ db

/-- C6: after `cleanup`, (i) no surviving session was created strictly before
the age cutoff, (ii) at most `maxSessions` sessions survive, and (iii) a
`cleanup` call on a store with no qualifying session (none too old, count
within the cap) is a no-op on the whole state — hence repeated calls are
idempotent.  The hypotheses are the `Map` well-formedness facts: session keys
are distinct and each entry is keyed by its session's `id`. -/
theorem c6_cleanup_spec (V : Type) (db : Store V) (now : Int)
    (maxAgeDays maxSessions : Nat)
    (hnd : (db.sessions.map Prod.fst).Nodup)
    (hid : ∀ p ∈ db.sessions, p.2.id = p.1) :
    (∀ p ∈ (cleanup db now maxAgeDays maxSessions).sessions,
        ¬ (p.2.createdAt < cleanupCutoff now maxAgeDays)) ∧
    (cleanup db now maxAgeDays maxSessions).sessions.length ≤ maxSessions ∧
    ((∀ p ∈ db.sessions, ¬ (p.2.createdAt < cleanupCutoff now maxAgeDays)) →
      db.sessions.length ≤ maxSessions →
      cleanup db now maxAgeDays maxSessions = db) := by
  have hfin : (cleanup db now maxAgeDays maxSessions).sessions
      = (cleanupPhase1 db now maxAgeDays).sessions.filter
          (fun p => decide (p.1 ∉ cleanupExcessIds (cleanupPhase1 db now maxAgeDays)
            maxSessions)) :=
    deleteAll_sessions V _ _
  have hmem1 : ∀ p ∈ (cleanupPhase1 db now maxAgeDays).sessions, p ∈ db.sessions := by
    intro p hp
    rw [cleanupPhase1_sessions] at hp
    exact (List.mem_filter.mp hp).1
  -- (i)
  have part1 : ∀ p ∈ (cleanup db now maxAgeDays maxSessions).sessions,
      ¬ (p.2.createdAt < cleanupCutoff now maxAgeDays) := by
    intro p hp hlt
    rw [hfin] at hp
    have hp1 := (List.mem_filter.mp hp).1
    rw [cleanupPhase1_sessions] at hp1
    rcases List.mem_filter.mp hp1 with ⟨hpdb, hnotold⟩
    have : p.1 ∈ cleanupOldIds db now maxAgeDays := by
      unfold cleanupOldIds
      exact List.mem_map.mpr ⟨p, List.mem_filter.mpr ⟨hpdb, by simp [hlt]⟩, rfl⟩
    rw [decide_eq_true_eq] at hnotold
    exact hnotold this
  -- well-formedness of the phase-1 store
  have hnd1 : ((cleanupPhase1 db now maxAgeDays).sessions.map Prod.fst).Nodup := by
    rw [cleanupPhase1_sessions]
    exact hnd.sublist ((List.filter_sublist _).map Prod.fst)
  have hid1 : ∀ p ∈ (cleanupPhase1 db now maxAgeDays).sessions, p.2.id = p.1 :=
    fun p hp => hid p (hmem1 p hp)
  -- (ii)
  have part2 : (cleanup db now maxAgeDays maxSessions).sessions.length ≤ maxSessions := by
    set S1 := (cleanupPhase1 db now maxAgeDays).sessions with hS1
    set ids := cleanupExcessIds (cleanupPhase1 db now maxAgeDays) maxSessions with hids
    have hsortlen : (iSort (fun a b => decide (b.updatedAt ≤ a.updatedAt))
        (S1.map Prod.snd)).length = S1.length := by
      rw [length_iSort, List.length_map]
    have hidslen : ids.length = S1.length - maxSessions := by
      rw [hids]
      unfold cleanupExcessIds
      rw [List.length_map, List.length_drop, hS1, hsortlen]
    have hpermid : ((iSort (fun a b => decide (b.updatedAt ≤ a.updatedAt))
          (S1.map Prod.snd)).map Session.id).Perm (S1.map Prod.fst) := by
      have h1 : ((S1.map Prod.snd).map Session.id) = S1.map Prod.fst := by
        rw [List.map_map]
        exact List.map_congr_left (fun p hp => hid1 p hp)
      exact h1 ▸ (iSort_perm _ (S1.map Prod.snd)).map Session.id
    have hidsnodup : ids.Nodup := by
      rw [hids]
      unfold cleanupExcessIds
      rw [← hS1, List.map_drop]
      exact (hpermid.nodup_iff.mpr hnd1).sublist (List.drop_sublist _ _)
    have hidssub : ∀ x ∈ ids, x ∈ S1.map Prod.fst := by
      intro x hx
      rw [hids] at hx
      unfold cleanupExcessIds at hx
      rw [← hS1, List.map_drop] at hx
      exact hpermid.mem_iff.mp (List.mem_of_mem_drop hx)
    have hlenfil : (S1.filter (fun p => decide (p.1 ∈ ids))).length = ids.length := by
      have hcount : (S1.filter (fun p => decide (p.1 ∈ ids))).length
          = ((S1.map Prod.fst).filter (fun k => decide (k ∈ ids))).length := by
        rw [← List.countP_eq_length_filter, ← List.countP_eq_length_filter,
          List.countP_map]
        rfl
      rw [hcount]
      exact length_filter_mem hnd1 hidsnodup hidssub
    have hnot : (cleanup db now maxAgeDays maxSessions).sessions
        = S1.filter (fun p => !(decide (p.1 ∈ ids))) := by
      rw [hfin]
      apply List.filter_congr
      intro p _
      simp [decide_not]
    rw [hnot, length_filter_notP, hlenfil, hidslen]
    omega
  refine ⟨part1, part2, ?_⟩
  -- (iii) idempotence on a store with no qualifying sessions
  intro hq1 hq2
  have hold : cleanupOldIds db now maxAgeDays = [] := by
    unfold cleanupOldIds
    have : db.sessions.filter
        (fun p => decide (p.2.createdAt < cleanupCutoff now maxAgeDays)) = [] := by
      rw [List.filter_eq_nil_iff]
      intro p hp
      simp [hq1 p hp]
    rw [this, List.map_nil]
  have hphase1 : cleanupPhase1 db now maxAgeDays = db := by
    unfold cleanupPhase1
    rw [hold]
    rfl
  have hexcess : cleanupExcessIds db maxSessions = [] := by
    unfold cleanupExcessIds
    have : (iSort (fun a b => decide (b.updatedAt ≤ a.updatedAt))
        (db.sessions.map Prod.snd)).drop maxSessions = [] := by
      apply List.drop_eq_nil_of_le
      rw [length_iSort, List.length_map]
      exact hq2
    rw [this, List.map_nil]
  unfold cleanup
  rw [hphase1, hexcess]
  rfl

/-- C6 witness: on the well-formed base store with nothing to delete,
`cleanup` is the identity. -/
theorem c6_cleanup_spec_witness :
    cleanup baseStore 0 30 50 = baseStore :=
  (c6_cleanup_spec Vec baseStore 0 30 50 (by decide) (by decide)).2.2
    (by decide) (by decide)

/-! ## Export/import round trip (C7) -/

theorem mapSet_append_fresh (m : List (String × α)) (k : String) (v : α)
    (h : ∀ p ∈ m, p.1 ≠ k) :
    mapSet m k v = m ++ [(k, v)] := by
  induction m with
  | nil => rfl
  | cons p t ih =>
    rw [show mapSet (p :: t) k v = p :: mapSet t k v from by
      rw [mapSet, if_neg (h p (List.mem_cons_self p t))]]
    rw [ih (fun q hq => h q (List.mem_cons_of_mem p hq)), List.cons_append]

theorem jsMapOfList_aux (l : List (String × α)) :
    ∀ m : List (String × α), (l.map Prod.fst).Nodup →
    (∀ p ∈ m, ∀ q ∈ l, p.1 ≠ q.1) →
    l.foldl (fun acc p => mapSet acc p.1 p.2) m = m ++ l := by
  induction l with
  | nil => intro m _ _; simp
  | cons q t ih =>
    intro m hl hdisj
    rw [List.foldl_cons]
    have h1 : mapSet m q.1 q.2 = m ++ [q] := by
      rw [mapSet_append_fresh m q.1 q.2
        (fun p hp => hdisj p hp q (List.mem_cons_self q t))]
    rw [h1, ih (m ++ [q]) ((List.nodup_cons.mp (by simpa using hl)).2) ?_]
    · rw [List.append_assoc, List.singleton_append]
    · intro p hp r hr
      rcases List.mem_append.mp hp with hp | hp
      · exact hdisj p hp r (List.mem_cons_of_mem q hr)
      · rw [List.mem_singleton.mp hp]
        intro hqr
        have hq1 : q.1 ∉ t.map Prod.fst := (List.nodup_cons.mp (by simpa using hl)).1
        exact hq1 (hqr ▸ List.mem_map.mpr ⟨r, hr, rfl⟩)

theorem jsMapOfList_eq_self (l : List (String × α))
    (h : (l.map Prod.fst).Nodup) : jsMapOfList l = l := by
  have := jsMapOfList_aux l [] h (by simp)
  simpa [jsMapOfList] using this

/-- C7: `importData (exportData db)` restores the store exactly — hence in
particular the same set of session ids and titles (same `getSession` view),
the same message list for every session (same `getMessages` view), and the
same embedding vector for every message id (exact value equality, which is
"within epsilon").  The hypotheses are the `Map` well-formedness facts:
distinct keys in each map, and session entries keyed by their session's
`id` (which `importData` uses to re-key the session list). -/
theorem c7_roundtrip (V : Type) (db : Store V) (now : Int)
    (h1 : (db.sessions.map Prod.fst).Nodup)
    (h2 : ∀ p ∈ db.sessions, p.2.id = p.1)
    (h3 : (db.messages.map Prod.fst).Nodup)
    (h4 : (db.messageEmbeddings.map Prod.fst).Nodup) :
    importData db (exportData db now) = db ∧
    (∀ id, mapGet (importData db (exportData db now)).sessions id
        = mapGet db.sessions id) ∧
    (∀ sid limit, getMessages (importData db (exportData db now)) sid limit
        = getMessages db sid limit) ∧
    (∀ mid, mapGet (importData db (exportData db now)).messageEmbeddings mid
        = mapGet db.messageEmbeddings mid) := by
  have hsess : (exportData db now).sessions.map (fun s => (s.id, s)) = db.sessions := by
    show (db.sessions.map Prod.snd).map (fun s => (s.id, s)) = db.sessions
    rw [List.map_map]
    have heq : ∀ p ∈ db.sessions, ((fun s => (s.id, s)) ∘ Prod.snd) p = id p := by
      intro p hp
      show (p.2.id, p.2) = p
      rw [h2 p hp]
    rw [List.map_congr_left heq, List.map_id]
  have himp : importData db (exportData db now) = db := by
    unfold importData
    rw [hsess, jsMapOfList_eq_self _ h1]
    show ({ db with
      sessions := db.sessions
      messages := jsMapOfList db.messages
      messageEmbeddings := jsMapOfList db.messageEmbeddings }) = db
    rw [jsMapOfList_eq_self _ h3, jsMapOfList_eq_self _ h4]
  exact ⟨himp, fun id => by rw [himp], fun sid limit => by rw [himp],
    fun mid => by rw [himp]⟩

/-- C7 witness: the base store round-trips. -/
theorem c7_roundtrip_witness :
    importData baseStore (exportData baseStore 99) = baseStore :=
  (c7_roundtrip Vec baseStore 99 (by decide) (by decide) (by decide) (by decide)).1

/-! ## The messageCount invariant (C9) -/

theorem countInvariant_createSession (V : Type) (db : Store V) (title : Option String)
    (now : Int) (freshId : String) (h : countInvariant db) :
    countInvariant (createSession db title now freshId).2 := by
  intro k s hk
  simp only [createSession] at hk ⊢
  rw [mapGet_mapSet] at hk
  rw [mapGet_mapSet]
  by_cases hkf : k = freshId
  · rw [if_pos hkf] at hk
    rw [if_pos hkf]
    cases Option.some.inj hk
    rfl
  · rw [if_neg hkf] at hk
    rw [if_neg hkf]
    exact h k s hk

theorem countInvariant_addMessage (V : Type) (db : Store V) (sid : String)
    (role : Role) (content : String) (now : Int) (fid : String) (emb : Option V)
    (h : countInvariant db) :
    countInvariant (addMessage db sid role content now fid emb).2 := by
  cases hd : dedupHit ((mapGet db.messages sid).getD []) role content now
  · cases hs : mapGet db.sessions sid with
    | some s0 =>
      intro k s hk
      simp only [addMessage, hd, Bool.false_eq_true, if_false, hs] at hk ⊢
      rw [mapGet_mapSet] at hk
      rw [mapGet_mapSet]
      by_cases hks : k = sid
      · rw [if_pos hks] at hk
        rw [if_pos hks]
        cases Option.some.inj hk
        rfl
      · rw [if_neg hks] at hk
        rw [if_neg hks]
        exact h k s hk
    | none =>
      intro k s hk
      simp only [addMessage, hd, Bool.false_eq_true, if_false, hs] at hk ⊢
      rw [mapGet_mapSet]
      by_cases hks : k = sid
      · rw [hks, hs] at hk
        cases hk
      · rw [if_neg hks]
        exact h k s hk
  · rw [addMessage_dup db sid role content now fid emb hd]
    exact h

theorem countInvariant_deleteSession (V : Type) (db : Store V) (id : String)
    (h : countInvariant db) : countInvariant (deleteSession db id) := by
  intro k s hk
  simp only [deleteSession] at hk ⊢
  rw [mapGet_mapDelete] at hk
  by_cases hki : k = id
  · rw [if_pos hki] at hk
    cases hk
  · rw [if_neg hki] at hk
    rw [mapGet_mapDelete, if_neg hki]
    exact h k s hk

theorem countInvariant_deleteMessage (V : Type) (db : Store V) (id : String)
    (now : Int) (h : countInvariant db) : countInvariant (deleteMessage db id now) := by
  cases hf : db.messages.find? (fun p => p.2.any (fun m => m.id == id)) with
  | none =>
    intro k s hk
    simp only [deleteMessage, hf] at hk ⊢
    exact h k s hk
  | some p =>
    cases hs : mapGet db.sessions p.1 with
    | some s0 =>
      intro k s hk
      simp only [deleteMessage, hf, hs] at hk ⊢
      rw [mapGet_mapSet] at hk
      rw [mapGet_mapSet]
      by_cases hks : k = p.1
      · rw [if_pos hks] at hk
        rw [if_pos hks]
        cases Option.some.inj hk
        rfl
      · rw [if_neg hks] at hk
        rw [if_neg hks]
        exact h k s hk
    | none =>
      intro k s hk
      simp only [deleteMessage, hf, hs] at hk ⊢
      rw [mapGet_mapSet]
      by_cases hks : k = p.1
      · rw [hks, hs] at hk
        cases hk
      · rw [if_neg hks]
        exact h k s hk

theorem countInvariant_updateSession (V : Type) (db : Store V) (id : String)
    (p : SessionPatch) (now : Int) (hp : p.messageCount = none)
    (h : countInvariant db) : countInvariant (updateSession db id p now) := by
  cases hs : mapGet db.sessions id with
  | none =>
    intro k s hk
    simp only [updateSession, hs] at hk ⊢
    exact h k s hk
  | some s0 =>
    intro k s hk
    simp only [updateSession, hs] at hk ⊢
    rw [mapGet_mapSet] at hk
    by_cases hki : k = id
    · rw [if_pos hki] at hk
      cases Option.some.inj hk
      have hcnt : (applyPatch s0 p now).messageCount = s0.messageCount := by
        simp [applyPatch, hp]
      rw [hcnt, hki]
      exact h id s0 hs
    · rw [if_neg hki] at hk
      exact h k s hk

theorem countInvariant_deleteAll (V : Type) (ids : List String) (db : Store V)
    (h : countInvariant db) : countInvariant (deleteAll db ids) := by
  induction ids generalizing db with
  | nil => exact h
  | cons i is ih => exact ih _ (countInvariant_deleteSession V db i h)

theorem countInvariant_cleanup (V : Type) (db : Store V) (now : Int)
    (maxAgeDays maxSessions : Nat) (h : countInvariant db) :
    countInvariant (cleanup db now maxAgeDays maxSessions) :=
  countInvariant_deleteAll V _ _ (countInvariant_deleteAll V _ _ h)

theorem countInvariant_importData (V : Type) (db : Store V) (snap : Snapshot V)
    (h1 : (snap.sessions.map Session.id).Nodup)
    (h2 : (snap.messages.map Prod.fst).Nodup)
    (h3 : ∀ s ∈ snap.sessions,
      s.messageCount = ((mapGet snap.messages s.id).getD []).length) :
    countInvariant (importData db snap) := by
  have hkeys : ((snap.sessions.map (fun s => (s.id, s))).map Prod.fst).Nodup := by
    rw [List.map_map]
    exact h1
  intro k s hk
  simp only [importData] at hk ⊢
  rw [jsMapOfList_eq_self _ hkeys] at hk
  rw [jsMapOfList_eq_self _ h2]
  have hmem := mapGet_mem hk
  rcases List.mem_map.mp hmem with ⟨s', hs', heq⟩
  have hid : s'.id = k := congrArg Prod.fst heq
  have hval : s' = s := congrArg Prod.snd heq
  subst hval
  rw [← hid]
  exact h3 s' hs'

/-- C9: amended invariant preservation.  `messageCount` always equals the
stored message-list length for every session, and this is preserved by
`createSession`, `addMessage` (both the insert and the dedup path),
`deleteMessage`, `deleteSession` and `cleanup` unconditionally; by
`updateSession` provided the partial update does not itself carry a
`messageCount` override; and by `importData` provided the snapshot is
well-formed (distinct session ids, distinct message keys) and itself satisfies
the count property. -/
theorem c9_invariant_preserved :
    (∀ (V : Type) (db : Store V) (title : Option String) (now : Int) (fid : String),
      countInvariant db → countInvariant (createSession db title now fid).2) ∧
    (∀ (V : Type) (db : Store V) (sid : String) (role : Role) (content : String)
      (now : Int) (fid : String) (emb : Option V),
      countInvariant db → countInvariant (addMessage db sid role content now fid emb).2) ∧
    (∀ (V : Type) (db : Store V) (id : String) (now : Int),
      countInvariant db → countInvariant (deleteMessage db id now)) ∧
    (∀ (V : Type) (db : Store V) (id : String),
      countInvariant db → countInvariant (deleteSession db id)) ∧
    (∀ (V : Type) (db : Store V) (id : String) (p : SessionPatch) (now : Int),
      p.messageCount = none → countInvariant db →
      countInvariant (updateSession db id p now)) ∧
    (∀ (V : Type) (db : Store V) (now : Int) (maxAgeDays maxSessions : Nat),
      countInvariant db → countInvariant (cleanup db now maxAgeDays maxSessions)) ∧
    (∀ (V : Type) (db : Store V) (snap : Snapshot V),
      (snap.sessions.map Session.id).Nodup →
      (snap.messages.map Prod.fst).Nodup →
      (∀ s ∈ snap.sessions,
        s.messageCount = ((mapGet snap.messages s.id).getD []).length) →
      countInvariant (importData db snap)) :=
  ⟨countInvariant_createSession, countInvariant_addMessage,
    countInvariant_deleteMessage, countInvariant_deleteSession,
    countInvariant_updateSession, countInvariant_cleanup,
    countInvariant_importData⟩

theorem baseStore_countInvariant : countInvariant baseStore := by
  intro k s hk
  rw [show baseStore.sessions = [("s", baseSession)] from rfl, mapGet_cons] at hk
  by_cases h : ("s" : String) = k
  · rw [if_pos h] at hk
    cases Option.some.inj hk
    subst h
    rfl
  · rw [if_neg h, mapGet_nil] at hk
    cases hk

/-- C9 counterexample: `updateSession` applies an arbitrary
`Partial<ChatSession>` by object spread, so a patch carrying a
`messageCount` field overrides the invariant-maintaining value: on the
well-formed base store (one session, zero messages), patching
`messageCount := 5` yields a state where the session claims 5 messages while
zero are stored.  Hence the claim "the invariant is preserved by every
operation of the public contract, including `updateSession`" is false as
stated. -/
theorem c9_updateSession_counterexample :
    countInvariant baseStore ∧
    ¬ countInvariant (updateSession baseStore "s"
        ⟨none, none, none, none, none, some 5⟩ 7) := by
  refine ⟨baseStore_countInvariant, ?_⟩
  intro hinv
  have h5 := hinv "s" (applyPatch baseSession ⟨none, none, none, none, none, some 5⟩ 7)
    rfl
  exact absurd h5 (by decide)

/-- C9 witness: the preservation theorem applied to `createSession` on the
base store. -/
theorem c9_invariant_preserved_witness :
    countInvariant (createSession baseStore (some "T") 3 "t2").2 :=
  c9_invariant_preserved.1 Vec baseStore (some "T") 3 "t2" baseStore_countInvariant

/-! ## Cosine similarity (C5) -/

theorem sumSq_nonneg (a : Vec) : 0 ≤ sumSq a := by
  apply List.sum_nonneg
  intro x hx
  rcases List.mem_map.mp hx with ⟨y, _, rfl⟩
  exact mul_self_nonneg y

theorem dotp_self (v : Vec) : dotp v v = sumSq v := by
  unfold dotp sumSq
  induction v with
  | nil => rfl
  | cons x t ih => simp_all [List.zipWith_cons_cons]

theorem sumSq_pos_of_nonzero {v : Vec} (h : ∃ x ∈ v, x ≠ 0) : 0 < sumSq v := by
  rcases h with ⟨x, hx, hx0⟩
  have h1 : x * x ∈ v.map (fun y => y * y) := List.mem_map.mpr ⟨x, hx, rfl⟩
  have h2 : x * x ≤ sumSq v :=
    List.single_le_sum
      (fun y hy => by
        rcases List.mem_map.mp hy with ⟨z, _, rfl⟩
        exact mul_self_nonneg z)
      _ h1
  have h3 : 0 < x * x := mul_self_pos.mpr hx0
  linarith

/-- C5: `cosineSimilarity` answers 0 on a length mismatch, 0 whenever either
vector has zero magnitude (instead of raising — it is a total function), and
otherwise the normalised dot product; in particular the similarity of any
non-zero vector with itself is exactly 1. -/
theorem c5_cosine_spec :
    (∀ a b : Vec, a.length ≠ b.length → cosineSimilarity a b = 0) ∧
    (∀ a b : Vec, l2 a = 0 ∨ l2 b = 0 → cosineSimilarity a b = 0) ∧
    (∀ v : Vec, (∃ x ∈ v, x ≠ 0) → cosineSimilarity v v = 1) := by
  refine ⟨?_, ?_, ?_⟩
  · intro a b h
    simp [cosineSimilarity, h]
  · intro a b h
    unfold cosineSimilarity
    by_cases hl : a.length = b.length
    · rw [if_pos hl, if_pos h]
    · rw [if_neg hl]
  · intro v hv
    have hS : 0 < sumSq v := sumSq_pos_of_nonzero hv
    have hl2 : 0 < l2 v := Real.sqrt_pos.mpr hS
    unfold cosineSimilarity
    rw [if_pos rfl,
      if_neg (by rintro (hz | hz) <;> exact (ne_of_gt hl2) hz), dotp_self]
    unfold l2
    rw [Real.mul_self_sqrt (le_of_lt hS)]
    exact div_self (ne_of_gt hS)

/-- C5 witness: a concrete length mismatch answers 0 and a concrete non-zero
vector has self-similarity 1. -/
theorem c5_cosine_spec_witness :
    cosineSimilarity [1] [] = 0 ∧ cosineSimilarity [(1 : ℝ)] [1] = 1 :=
  ⟨c5_cosine_spec.1 [1] [] (by simp),
   c5_cosine_spec.2.2 [1] ⟨1, by simp, one_ne_zero⟩⟩

/-! ## Embedding generator (C3) -/

theorem foldl_bump (l : List Nat) : ∀ (v : Nat → Nat) (i : Nat),
    (l.foldl bump v) i = v i + l.count i := by
  induction l with
  | nil => intro v i; simp
  | cons j t ih =>
    intro v i
    rw [List.foldl_cons, ih, List.count_cons]
    unfold bump
    by_cases h : i = j
    · rw [if_pos h, if_pos (by simp [h] : (j == i) = true)]
      omega
    · rw [if_neg h, if_neg (by simp [Ne.symm h] : ¬ (j == i) = true)]
      omega

theorem splitWS_ne_nil : ∀ (l : List Char), splitWS l ≠ [] := by
  intro l
  induction l with
  | nil => simp [splitWS]
  | cons c cs ih =>
    simp only [splitWS]
    by_cases h : isWS c
    · rw [if_pos h]
      cases cs with
      | nil => simp
      | cons c2 t =>
        by_cases h2 : isWS c2
        · simpa [h2] using ih
        · simp [h2]
    · rw [if_neg h]
      cases hsp : splitWS cs with
      | nil => simp
      | cons w ws => simp

theorem wordIdxs_ne_nil {ws : List (List Char)} {half : Nat} (hws : ws ≠ [])
    (hhalf : 1 ≤ half) : wordIdxs ws half ≠ [] := by
  intro hcon
  have hlen := congrArg List.length hcon
  rw [wordIdxs, List.length_map, List.length_range] at hlen
  simp only [List.length_nil] at hlen
  have h1 : 0 < ws.length := List.length_pos.mpr hws
  omega

theorem embedIdxs_ne_nil {t : String} {d : Nat} (hd : 2 ≤ d) :
    embedIdxs t d ≠ [] := by
  unfold embedIdxs
  intro h
  rcases List.append_eq_nil.mp h with ⟨_, h2⟩
  exact wordIdxs_ne_nil (splitWS_ne_nil _) (by omega) h2

theorem embedIdxs_lt {t : String} {d : Nat} (hd : 2 ≤ d) :
    ∀ j ∈ embedIdxs t d, j < d := by
  intro j hj
  have hhalf : 0 < d / 2 := by
    apply Nat.div_pos hd
    omega
  have h2 : d / 2 * 2 ≤ d := Nat.div_mul_le_self d 2
  rcases List.mem_append.mp hj with hj | hj
  · rw [bigramIdxs] at hj
    rcases List.mem_map.mp hj with ⟨i, _, rfl⟩
    have := Nat.mod_lt (simpleHash ((((t.data.map Char.toLower).filter
      (fun c => !isWS c)).drop i).take 2)) hhalf
    omega
  · rw [wordIdxs] at hj
    rcases List.mem_map.mp hj with ⟨i, _, rfl⟩
    have := Nat.mod_lt (simpleHash ((splitWS (t.data.map Char.toLower)).getD i [])) hhalf
    omega

theorem one_le_embedNormSq {t : String} {d : Nat} (hd : 2 ≤ d) :
    1 ≤ embedNormSq t d := by
  obtain ⟨j, hj⟩ : ∃ j, j ∈ embedIdxs t d :=
    List.exists_mem_of_ne_nil _ (embedIdxs_ne_nil hd)
  have hjd : j < d := embedIdxs_lt hd j hj
  have hc : 1 ≤ embedCounts t d j := by
    unfold embedCounts
    rw [foldl_bump]
    have := List.count_pos_iff.mpr hj
    omega
  have hterm : (1 : ℝ) ≤ ((embedCounts t d j : ℝ)) ^ 2 := by
    have h1 : (1 : ℝ) ≤ (embedCounts t d j : ℝ) := by exact_mod_cast hc
    nlinarith
  calc (1 : ℝ) ≤ ((embedCounts t d j : ℝ)) ^ 2 := hterm
    _ ≤ ∑ i ∈ Finset.range d, ((embedCounts t d i : ℝ)) ^ 2 :=
      Finset.single_le_sum (f := fun i => ((embedCounts t d i : ℝ)) ^ 2)
        (fun i _ => sq_nonneg _) (Finset.mem_range.mpr hjd)

/-- C3: amended.  The embedding generator is a pure function of the input
text (determinism is reflexivity of the model), and for **every** text —
non-empty or not — the returned vector has L2 norm exactly 1 in the real
idealisation: the word loop always runs at least once because JS
`split(/\s+/)` never returns an empty array, so the squared magnitude is at
least 1 and the normalisation branch is always taken. -/
theorem c3_embed_determinism_norm (t : String) (d : Nat) (hd : 2 ≤ d) :
    embedR t d = embedR t d ∧ embedNormOut t d = 1 := by
  refine ⟨rfl, ?_⟩
  have hS1 : 1 ≤ embedNormSq t d := one_le_embedNormSq hd
  have hS0 : 0 < embedNormSq t d := by linarith
  have hsq : 0 < Real.sqrt (embedNormSq t d) := Real.sqrt_pos.mpr hS0
  unfold embedNormOut
  have hpt : ∀ i ∈ Finset.range d, (embedR t d i) ^ 2
      = ((embedCounts t d i : ℝ)) ^ 2 / embedNormSq t d := by
    intro i _
    unfold embedR
    rw [if_pos hsq, div_pow, Real.sq_sqrt (le_of_lt hS0)]
  rw [Finset.sum_congr rfl hpt, ← Finset.sum_div]
  have hsum : (∑ i ∈ Finset.range d, ((embedCounts t d i : ℝ)) ^ 2)
      = embedNormSq t d := rfl
  rw [hsum, div_self (ne_of_gt hS0), Real.sqrt_one]

/-- C3 witness: the one-letter text gets a unit-norm 128-dimensional vector
and the generator is deterministic on it. -/
theorem c3_embed_determinism_norm_witness :
    embedR "a" 128 = embedR "a" 128 ∧ embedNormOut "a" 128 = 1 :=
  c3_embed_determinism_norm "a" 128 (by decide)

/-- C3 counterexample: the claim "for empty text the returned vector is all
zeros, unnormalized" is false on the code.  JS `"".split(/\s+/)` yields
`[""]`, the single empty word hashes to 0, so slot `64` (= `dimensions / 2`)
of the raw vector gets one increment; the magnitude is 1 and the returned
vector is the unit basis vector at index 64 — not the zero vector. -/
theorem c3_empty_embedding_counterexample :
    embedR "" 128 64 = 1 ∧ embedR "" 128 64 ≠ 0 := by
  have hidx : embedIdxs "" 128 = [64] := by decide
  have hcounts : ∀ i, embedCounts "" 128 i = if i = 64 then 1 else 0 := by
    intro i
    unfold embedCounts
    rw [hidx, foldl_bump]
    by_cases h : i = 64
    · subst h
      simp
    · simp [List.count_singleton, Ne.symm h, h]
  have hS : embedNormSq "" 128 = 1 := by
    unfold embedNormSq
    rw [Finset.sum_eq_single 64]
    · rw [hcounts]
      simp
    · intro i _ hne
      rw [hcounts]
      simp [hne]
    · intro h64
      exact absurd (Finset.mem_range.mpr (by norm_num)) h64
  have h1 : embedR "" 128 64 = 1 := by
    unfold embedR
    rw [hS, Real.sqrt_one, if_pos one_pos, hcounts]
    simp
  exact ⟨h1, by rw [h1]; exact one_ne_zero⟩

/-! ## Vector search (C4) -/

theorem rdecide_iff (p : Prop) : rdecide p = true ↔ p := by
  unfold rdecide
  rw [@decide_eq_true_eq p (Classical.propDecidable p)]

theorem candOf_eq_some {threshold : ℝ} {db : Store Vec} {q : Vec}
    {m : ChatMessage Vec} {x : ChatMessage Vec × ℝ}
    (h : candOf threshold db q m = some x) :
    threshold ≤ x.2 ∧ x.1 = m := by
  unfold candOf at h
  split at h
  next e heq =>
    split at h
    next hth =>
      cases Option.some.inj h
      exact ⟨(rdecide_iff _).mp hth, rfl⟩
    next hth => cases h
  next heq => cases h

theorem mem_searchCandidates {threshold : ℝ} {db : Store Vec} {q : Vec}
    {scope : Option String} {x : ChatMessage Vec × ℝ}
    (hx : x ∈ searchCandidates threshold db q scope) :
    threshold ≤ x.2 ∧
    ∃ p ∈ db.messages, (∀ s, scope = some s → s ≠ "" → p.1 = s) ∧ x.1 ∈ p.2 := by
  unfold searchCandidates at hx
  rcases List.mem_flatten.mp hx with ⟨inner, hinner, hxin⟩
  rcases List.mem_map.mp hinner with ⟨p, hp, rfl⟩
  rcases List.mem_filterMap.mp hxin with ⟨m, hm, hfm⟩
  rcases List.mem_filter.mp hp with ⟨hpdb, hpscope⟩
  rcases candOf_eq_some hfm with ⟨hth, hxm⟩
  refine ⟨hth, p, hpdb, ?_, hxm ▸ hm⟩
  intro s hs hsne
  rw [hs] at hpscope
  simp only [if_neg hsne] at hpscope
  simpa using hpscope

theorem searchCandidates_empty_scope (threshold : ℝ) (db : Store Vec) (q : Vec) :
    searchCandidates threshold db q (some "") = searchCandidates threshold db q none := by
  unfold searchCandidates
  have hfil : ∀ p ∈ db.messages,
      (match (some "" : Option String) with
        | some s => if s = "" then true else p.1 == s
        | none => true)
      = (match (none : Option String) with
        | some s => if s = "" then true else p.1 == s
        | none => true) := by
    intro p _
    simp
  rw [List.filter_congr hfil]

theorem searchSorted_empty_scope (threshold : ℝ) (db : Store Vec) (q : Vec) :
    searchSorted threshold db q (some "") = searchSorted threshold db q none := by
  unfold searchSorted
  rw [searchCandidates_empty_scope]

/-- C4: amended search specification.  Every result scores at least the
threshold; the result list is sorted non-increasingly by similarity; its
length is at most `limit`; with a **non-empty** session scope every returned
message comes from an entry of the message map keyed by that session (the
empty session id is falsy in JS, so `sessionId=""` disables scoping and the
scan covers all sessions — stated as the fifth conjunct); the result is the
`limit`-prefix of the stably sorted candidate list; and the sort keeps
equal-similarity candidates in their original scan (insertion) order — the
filter of any fixed similarity value is unchanged by the sort. -/
theorem c4_search_spec (threshold : ℝ) (db : Store Vec) (q : Vec)
    (scope : Option String) (limit : Nat) :
    (∀ x ∈ searchSimilarMessages threshold db q scope limit, threshold ≤ x.2) ∧
    (searchSimilarMessages threshold db q scope limit).Pairwise
      (fun a b => b.2 ≤ a.2) ∧
    (searchSimilarMessages threshold db q scope limit).length ≤ limit ∧
    (∀ s, scope = some s → s ≠ "" →
      ∀ x ∈ searchSimilarMessages threshold db q scope limit,
      ∃ p ∈ db.messages, p.1 = s ∧ x.1 ∈ p.2) ∧
    searchSimilarMessages threshold db q (some "") limit
      = searchSimilarMessages threshold db q none limit ∧
    searchSimilarMessages threshold db q scope limit
      = (searchSorted threshold db q scope).take limit ∧
    (∀ c : ℝ, (searchSorted threshold db q scope).filter (fun x => rdecide (x.2 = c))
        = (searchCandidates threshold db q scope).filter
            (fun x => rdecide (x.2 = c))) := by
  have hmemsort : ∀ x ∈ searchSimilarMessages threshold db q scope limit,
      x ∈ searchCandidates threshold db q scope := by
    intro x hx
    have h1 : x ∈ searchSorted threshold db q scope :=
      List.mem_of_mem_take hx
    exact mem_iSort.mp h1
  have htot : ∀ a b : ChatMessage Vec × ℝ, simLe a b = true ∨ simLe b a = true := by
    intro a b
    rcases le_total b.2 a.2 with h | h
    · exact Or.inl ((rdecide_iff _).mpr h)
    · exact Or.inr ((rdecide_iff _).mpr h)
  have htrans : ∀ a b c : ChatMessage Vec × ℝ,
      simLe a b = true → simLe b c = true → simLe a c = true := by
    intro a b c hab hbc
    exact (rdecide_iff _).mpr
      (le_trans ((rdecide_iff _).mp hbc) ((rdecide_iff _).mp hab))
  refine ⟨?_, ?_, ?_, ?_, ?_, rfl, ?_⟩
  · intro x hx
    exact (mem_searchCandidates (hmemsort x hx)).1
  · have hp := iSort_pairwise htot htrans (searchCandidates threshold db q scope)
    have hp2 : (searchSorted threshold db q scope).Pairwise (fun a b => b.2 ≤ a.2) :=
      hp.imp (fun h => (rdecide_iff _).mp h)
    exact List.Pairwise.sublist (List.take_sublist _ _) hp2
  · exact List.length_take_le _ _
  · intro s hs hsne x hx
    rcases (mem_searchCandidates (hmemsort x hx)).2 with ⟨p, hp, hsc, hxm⟩
    exact ⟨p, hp, hsc s hs hsne, hxm⟩
  · unfold searchSimilarMessages
    rw [searchSorted_empty_scope]
  · intro c
    apply iSort_filter
    intro a ha b hb
    exact (rdecide_iff _).mpr
      (le_of_eq (((rdecide_iff _).mp hb).trans ((rdecide_iff _).mp ha).symm))

/-- C4 witness: a concrete search on the base store respects the limit and is
the truncation of the sorted candidate list, and its non-empty session scope
conjunct is exercised on the `"x"`-scoped store. -/
theorem c4_search_spec_witness :
    (searchSimilarMessages (3 / 10 : ℝ) baseStore [1] none 5).length ≤ 5 ∧
    searchSimilarMessages (3 / 10 : ℝ) baseStore [1] none 5
      = (searchSorted (3 / 10 : ℝ) baseStore [1] none).take 5 :=
  ⟨(c4_search_spec (3 / 10 : ℝ) baseStore [1] none 5).2.2.1,
   (c4_search_spec (3 / 10 : ℝ) baseStore [1] none 5).2.2.2.2.2.1⟩

theorem cosine_one_one : cosineSimilarity [(1 : ℝ)] [1] = 1 := by
  have hS : sumSq [(1 : ℝ)] = 1 := by
    unfold sumSq
    simp
  have hl2 : l2 [(1 : ℝ)] = 1 := by
    unfold l2
    rw [hS, Real.sqrt_one]
  unfold cosineSimilarity
  rw [if_pos rfl,
    if_neg (by rw [hl2]; rintro (h | h) <;> exact one_ne_zero h), hl2]
  unfold dotp
  simp

/-- C4 counterexample: the claim "when sessionId is given, every returned
message belongs to that session" is false as stated.  The scan guard is
`if (sessionId && sid !== sessionId) continue`, so the **empty** session id is
falsy and disables scoping: searching with `sessionId = ""` on a store whose
only message lives in session `"x"` still returns that message, which does
not belong to any session keyed `""`. -/
theorem c4_empty_scope_counterexample :
    searchSimilarMessages (3 / 10 : ℝ) c4Store [1] (some "") 5 = [(c4Message, 1)] ∧
    ¬ ∃ p ∈ c4Store.messages, p.1 = "" ∧ c4Message ∈ p.2 := by
  constructor
  · have hget : mapGet c4Store.messageEmbeddings c4Message.id = some [(1 : ℝ)] := rfl
    have hcand : candOf (3 / 10 : ℝ) c4Store [1] c4Message = some (c4Message, 1) := by
      unfold candOf
      simp only [hget]
      rw [if_pos ((rdecide_iff _).mpr (by rw [cosine_one_one]; norm_num)),
        cosine_one_one]
    have hfil : c4Store.messages.filter (fun p =>
        match (some "" : Option String) with
        | some s => if s = "" then true else p.1 == s
        | none => true) = [("x", [c4Message])] := by
      simp [c4Store]
    have hcands : searchCandidates (3 / 10 : ℝ) c4Store [1] (some "")
        = [(c4Message, 1)] := by
      unfold searchCandidates
      rw [hfil]
      simp [hcand]
    unfold searchSimilarMessages searchSorted
    rw [hcands]
    rfl
  · rintro ⟨p, hp, hk, _⟩
    rw [show c4Store.messages = [("x", [c4Message])] from rfl] at hp
    rw [List.mem_singleton.mp hp] at hk
    exact absurd hk (by decide)

end MobileLlm
